import Mathlib

/-!
Verification development for the snippet-expansion core of the
`opencode-snippets` repository (source of authority: the expander module —
`parseSnippetBlocks`, `expandHashtags`, `assembleMessage` — together with the
`PATTERNS.HASHTAG` regex from `constants.ts`).

Strings are modelled as `List Char`.  The hashtag regex
`/#([a-z0-9\-_]+)/gi` and the tag regex built from
`<(/?)(prepend|append|inject)>` with flags `gi` are modelled by executable
scanners that mirror the semantics of `String.prototype.replace` with a
global regex (matches computed left to right over the original string,
non-overlapping, the scan resuming right after each match).

The JavaScript functions have no fuel, but two of their loops are not
structurally recursive:

* the `while (match !== null)` loop of `parseSnippetBlocks` does **not**
  advance the regex cursor in its "closing tag without an open block"
  branch (the `continue` skips the `tagPattern.exec` call), so on that
  branch the loop re-runs with an unchanged state;
* `expandHashtags` repeats substitution passes and recurses into fragment
  contents.

Both are therefore embedded with an explicit fuel parameter; `none` (for
the parser: the outer `none`) means the computation did not finish within
the given fuel.  A run that the real code completes is reproduced exactly
by any sufficient fuel, and true divergence of the real code corresponds
to the fueled run returning `none` for *every* fuel.
-/

namespace Snip

/-- Strings of the modelled program, as lists of characters. -/
abbrev Str := List Char

/-- Coerce a Lean string literal to the model's string type. -/
def str (s : String) : Str := s.data

/-- Characters the hashtag regex class `[a-z0-9\-_]` matches under the `i`
flag: ASCII letters (both cases), digits, `-`, `_`. -/
def isMarkerChar (c : Char) : Bool :=
  decide ((97 ≤ c.toNat ∧ c.toNat ≤ 122) ∨ (65 ≤ c.toNat ∧ c.toNat ≤ 90) ∨
    (48 ≤ c.toNat ∧ c.toNat ≤ 57) ∨ c.toNat = 45 ∨ c.toNat = 95)

/-- Lower-case letters, digits, `-`, `_` : the characters a registry key is
made of (registry keys are stored lower-cased). -/
def isLowerMarker (c : Char) : Bool :=
  decide ((97 ≤ c.toNat ∧ c.toNat ≤ 122) ∨ (48 ≤ c.toNat ∧ c.toNat ≤ 57) ∨
    c.toNat = 45 ∨ c.toNat = 95)

/-- ASCII lower-casing of one character, as `String.prototype.toLowerCase`
acts on the ASCII range (the only range tag and marker names use). -/
def asciiLower (c : Char) : Char :=
  if 65 ≤ c.toNat ∧ c.toNat ≤ 90 then Char.ofNat (c.toNat + 32) else c

/-- Lower-casing of a string (`name.toLowerCase()`). -/
def lowerStr (s : Str) : Str := s.map asciiLower

/-- Whitespace for `String.prototype.trim`: tab, LF, VT, FF, CR, space,
no-break space. -/
def isWS (c : Char) : Bool :=
  decide (c.toNat = 9 ∨ c.toNat = 10 ∨ c.toNat = 11 ∨ c.toNat = 12 ∨
    c.toNat = 13 ∨ c.toNat = 32 ∨ c.toNat = 160)

/-- `s.trim()`: strip leading and trailing whitespace. -/
def trim (s : Str) : Str :=
  ((s.dropWhile isWS).reverse.dropWhile isWS).reverse

/-- `content.slice(a, b)`. -/
def slice (s : Str) (a b : Nat) : Str := (s.take b).drop a

/-- `content.slice(a)`. -/
def sliceFrom (s : Str) (a : Nat) : Str := s.drop a

/-- `parts.join(sep)`. -/
def joinWith (sep : Str) : List Str → Str
  | [] => []
  | [x] => x
  | x :: y :: xs => x ++ sep ++ joinWith sep (y :: xs)

/-- The string `s` repeated `n` times. -/
def repeatStr (n : Nat) (s : Str) : Str :=
  match n with
  | 0 => []
  | n + 1 => s ++ repeatStr n s

/-- Does `pat` occur as a contiguous substring of `s`? -/
def startsWithStr : Str → Str → Bool
  | _, [] => true
  | [], _ :: _ => false
  | c :: cs, p :: ps => c = p && startsWithStr cs ps

/-- Substring occurrence test. -/
def containsSub : Str → Str → Bool
  | [], pat => pat.isEmpty
  | c :: cs, pat => startsWithStr (c :: cs) pat || containsSub cs pat

/-- Does the text contain a reference marker, i.e. a `#` immediately
followed by at least one character of the marker class? -/
def hasMarker : Str → Bool
  | [] => false
  | _ :: [] => false
  | c :: d :: rest => (c = '#' && isMarkerChar d) || hasMarker (d :: rest)

/-! ## Registry, counts, results -/

/-- The snippet registry: lookup key (lower-cased) to fragment content.
The engine reads only `snippet.content` from a registry entry, so entries
are modelled by their content string. -/
abbrev Registry := List (Str × Str)

/-- Per-key expansion counters (`expansionCounts : Map<string, number>`). -/
abbrev Counts := List (Str × Nat)

/-- First-match association-list lookup (`Map.get`). -/
def alGet {α : Type} : List (Str × α) → Str → Option α
  | [], _ => none
  | (k', v) :: rest, k => if k' = k then some v else alGet rest k

/-- `expansionCounts.get(key) || 0`. -/
def countGet (m : Counts) (k : Str) : Nat := (alGet m k).getD 0

/-- `Map.set`: overwrite the existing binding, else append a new one. -/
def countsSet (m : Counts) (k : Str) (v : Nat) : Counts :=
  match m with
  | [] => [(k, v)]
  | (k', v') :: rest => if k' = k then (k', v) :: rest else (k', v') :: countsSet rest k v

/-- The two warnings `expandHashtags` can emit through the logger:
budget exhaustion (`Loop detected: ...`) with the offending key and count,
and a parse failure (`Failed to parse snippet ...`) with the key. -/
inductive Warning where
  | loop (key : Str) (count : Nat)
  | parseFail (key : Str)
  deriving DecidableEq, Repr

/-- Block kinds recognized by the block parser. -/
inductive BlockType where
  | prepend
  | append
  | inject
  deriving DecidableEq, Repr

/-- `ParsedSnippetContent`: the successful result of `parseSnippetBlocks`. -/
structure Parsed where
  inline : Str
  «prepend» : List Str
  «append» : List Str
  inject : List Str
  deriving DecidableEq, Repr

/-- `ExpansionResult`. -/
structure ExpResult where
  text : Str
  «prepend» : List Str
  «append» : List Str
  inject : List Str
  deriving DecidableEq, Repr

/-- The mutable engine state shared by all recursive `expandHashtags`
calls of one top-level invocation: the counts map plus the stream of
warnings emitted so far. -/
structure EngineSt where
  counts : Counts
  warnings : List Warning
  deriving DecidableEq, Repr

/-! ## The hashtag scanner (`expanded.replace(PATTERNS.HASHTAG, cb)`)

`rmGo cb l skip s` walks the text.  While `skip` is positive the current
character belongs to a marker name already handed to the callback and is
consumed silently.  At `skip = 0`, a `#` followed by at least one marker
character is a match: the callback receives the full match and the
captured name, its output is spliced in, and the name's characters are
skipped — exactly the scan-resume behaviour of a global regex.  The
callback may abort (`none`), modelling a nested computation that does not
finish. -/

def rmGo {σ : Type} (cb : Str → Str → σ → Option (Str × σ)) :
    Str → Nat → σ → Option (Str × σ)
  | [], _, s => some ([], s)
  | _ :: rest, skip + 1, s => rmGo cb rest skip s
  | c :: rest, 0, s =>
    if c = '#' then
      let name := rest.takeWhile isMarkerChar
      if name = [] then
        match rmGo cb rest 0 s with
        | none => none
        | some (t, s') => some (c :: t, s')
      else
        match cb ('#' :: name) name s with
        | none => none
        | some (rep, s') =>
          match rmGo cb rest name.length s' with
          | none => none
          | some (t, s'') => some (rep ++ t, s'')
    else
      match rmGo cb rest 0 s with
      | none => none
      | some (t, s') => some (c :: t, s')

/-- `text.replace(PATTERNS.HASHTAG, cb)` with a state-threading callback. -/
def replaceMarkers {σ : Type} (cb : Str → Str → σ → Option (Str × σ))
    (l : Str) (s : σ) : Option (Str × σ) :=
  rmGo cb l 0 s

/-! ## The tag scanner (`new RegExp("<(/?)(prepend|append|inject)>", "gi")`) -/

/-- One regex match of the tag pattern. -/
structure Tag where
  start : Nat
  closing : Bool
  ty : BlockType
  stop : Nat
  deriving DecidableEq, Repr

/-- The recognized tag names: `prepend` and `append`, plus `inject` iff
`extractInject` is set. -/
def tagNames (extractInject : Bool) : List (Str × BlockType) :=
  if extractInject then
    [(str "prepend", BlockType.prepend), (str "append", BlockType.append),
      (str "inject", BlockType.inject)]
  else
    [(str "prepend", BlockType.prepend), (str "append", BlockType.append)]

/-- Case-insensitively match the (lower-case) pattern `p` as a prefix of
`l`; return the rest of `l` on success. -/
def ciMatch : Str → Str → Option Str
  | [], l => some l
  | _ :: _, [] => none
  | p :: ps, c :: cs => if asciiLower c = p then ciMatch ps cs else none

/-- Try each tag name at the given point; a name matches if it is followed
by `>`.  Returns the block type and the name's length. -/
def tryNames : List (Str × BlockType) → Str → Option (BlockType × Nat)
  | [], _ => none
  | (nm, ty) :: more, l =>
    match ciMatch nm l with
    | some ('>' :: _) => some (ty, nm.length)
    | _ => tryNames more l

/-- Try to match the tag regex at the start of `l`: `<`, an optional `/`,
a recognized name, `>`.  Returns (closing?, type, total match length). -/
def tryTag (names : List (Str × BlockType)) : Str → Option (Bool × BlockType × Nat)
  | [] => none
  | c :: rest =>
    if c = '<' then
      match rest with
      | '/' :: rest2 =>
        match tryNames names rest2 with
        | some (ty, n) => some (true, ty, n + 3)
        | none =>
          match tryNames names rest with
          | some (ty, n) => some (false, ty, n + 2)
          | none => none
      | _ =>
        match tryNames names rest with
        | some (ty, n) => some (false, ty, n + 2)
        | none => none
    else none

/-- All matches of the tag regex, left to right and non-overlapping, with
their positions (`match.index` / end), as the `g`-flag `exec` loop
produces them.  `skip` counts characters still belonging to the previous
match. -/
def ftGo (names : List (Str × BlockType)) : Str → Nat → Nat → List Tag
  | [], _, _ => []
  | _ :: rest, skip + 1, pos => ftGo names rest skip (pos + 1)
  | c :: rest, 0, pos =>
    match tryTag names (c :: rest) with
    | some (cl, ty, len) =>
      ⟨pos, cl, ty, pos + len⟩ :: ftGo names rest (len - 1) (pos + 1)
    | none => ftGo names rest 0 (pos + 1)

/-- The tag matches of `content`. -/
def findTags (extractInject : Bool) (content : Str) : List Tag :=
  ftGo (tagNames extractInject) content 0 0

/-! ## The block parser (`parseSnippetBlocks`) -/

/-- The parser's `currentBlock` record. -/
structure OpenB where
  ty : BlockType
  startIndex : Nat
  contentStart : Nat
  deriving DecidableEq, Repr

/-- Route a (trimmed) block content into the right list, dropping it when
empty — `if (blockContent) { ... push ... }`. -/
def pushB (P A I : List Str) (ty : BlockType) (bc : Str) :
    List Str × List Str × List Str :=
  if bc = [] then (P, A, I)
  else
    match ty with
    | BlockType.prepend => (P ++ [bc], A, I)
    | BlockType.append => (P, A ++ [bc], I)
    | BlockType.inject => (P, A, I ++ [bc])

/-- The `while (match !== null)` loop of `parseSnippetBlocks`, processing
the precomputed match list.  The branch for a closing tag with no open
block mirrors the source's `continue`, which skips the `exec` advance:
the state (including the match list) is unchanged, so only fuel shrinks —
with the consequence that this branch can never reach an exit.
`none` = out of fuel (the real loop still running); `some none` = the
source's `return null` failure sentinel; `some (some r)` = success. -/
def parseGo (content : Str) :
    Nat → List Tag → Option OpenB → Nat → Str → List Str → List Str → List Str →
    Option (Option Parsed)
  | 0, _, _, _, _, _, _, _ => none
  | _ + 1, [], cur, lastIdx, inline, P, A, I =>
    match cur with
    | some cb =>
      let bc := trim (sliceFrom content cb.contentStart)
      let (P', A', I') := pushB P A I cb.ty bc
      some (some ⟨trim inline, P', A', I'⟩)
    | none =>
      some (some ⟨trim (inline ++ sliceFrom content lastIdx), P, A, I⟩)
  | f + 1, t :: rest, cur, lastIdx, inline, P, A, I =>
    if t.closing then
      match cur with
      | none => parseGo content f (t :: rest) none lastIdx inline P A I
      | some cb =>
        if cb.ty ≠ t.ty then some none
        else
          let bc := trim (slice content cb.contentStart t.start)
          let (P', A', I') := pushB P A I cb.ty bc
          parseGo content f rest none t.stop inline P' A' I'
    else
      match cur with
      | some _ => some none
      | none =>
        parseGo content f rest (some ⟨t.ty, t.start, t.stop⟩) lastIdx
          (inline ++ slice content lastIdx t.start) P A I

/-- Run the parse loop of `parseSnippetBlocks` on `content` with the given
fuel. -/
def parseRun (content : Str) (extractInject : Bool) (fuel : Nat) :
    Option (Option Parsed) :=
  parseGo content fuel (findTags extractInject content) none 0 [] [] [] []

/-- `parseSnippetBlocks(content, {extractInject})`.  Every iteration of the
source's loop except the stuck `continue` branch consumes one match, so
`number of matches + 1` fuel reproduces every terminating run; the fueled
run returns the outer `none` exactly when the source loops forever. -/
def parseSnippetBlocks (content : Str) (extractInject : Bool) :
    Option (Option Parsed) :=
  parseRun content extractInject ((findTags extractInject content).length + 1)

/-- The real parse loop never finishes on this input: for every fuel the
run is still unfinished. -/
def parseDiverges (content : Str) (extractInject : Bool) : Prop :=
  ∀ fuel, parseRun content extractInject fuel = none

/-! ## The expansion engine (`expandHashtags`) -/

/-- The state threaded through one substitution pass: the shared engine
state, this round's collected blocks (`roundPrepend` …), and the
pass-local `loopDetected` flag. -/
structure PassSt where
  st : EngineSt
  rP : List Str
  rA : List Str
  rI : List Str
  loopD : Bool
  deriving DecidableEq, Repr

/-- The replacement callback of `expandHashtags`, generic in the function
`nest` used for the recursive expansion of a fragment's inline part.
Mirrors the source branch for branch: unknown key → keep the match;
budget exceeded (`count > 15`) → warn, set `loopDetected`, keep the match;
parse failure → warn, keep the match; otherwise collect the fragment's
blocks and the nested result's blocks and substitute the nested text. -/
def expandCbG (reg : Registry) (extractInject : Bool)
    (nest : Str → EngineSt → Option (ExpResult × EngineSt))
    (mtch name : Str) (ps : PassSt) : Option (Str × PassSt) :=
  let key := lowerStr name
  match alGet reg key with
  | none => some (mtch, ps)
  | some content =>
    let count := countGet ps.st.counts key + 1
    if 15 < count then
      some (mtch,
        ⟨⟨ps.st.counts, ps.st.warnings ++ [Warning.loop key count]⟩,
          ps.rP, ps.rA, ps.rI, true⟩)
    else
      let counts' := countsSet ps.st.counts key count
      match parseSnippetBlocks content extractInject with
      | none => none
      | some none =>
        some (mtch,
          ⟨⟨counts', ps.st.warnings ++ [Warning.parseFail key]⟩,
            ps.rP, ps.rA, ps.rI, ps.loopD⟩)
      | some (some parsed) =>
        match nest parsed.inline ⟨counts', ps.st.warnings⟩ with
        | none => none
        | some (res, st2) =>
          some (res.text,
            ⟨st2, ps.rP ++ parsed.prepend ++ res.prepend,
              ps.rA ++ parsed.append ++ res.append,
              ps.rI ++ parsed.inject ++ res.inject, ps.loopD⟩)

/-- `expandHashtags`, fueled.  One fuel step is one iteration of the
`while (hasChanges)` loop; the accumulators are the `collectedPrepend` /
`collectedAppend` / `collectedInject` lists.  The pass substitutes every
marker of the current text (callback `expandCbG`, recursing with smaller
fuel), appends the round's blocks, and repeats while the text changed and
no loop was detected. -/
def expandGo (reg : Registry) (extractInject : Bool) :
    Nat → Str → EngineSt → List Str → List Str → List Str →
    Option (ExpResult × EngineSt)
  | 0, _, _, _, _, _ => none
  | f + 1, text, st, aP, aA, aI =>
    match rmGo (expandCbG reg extractInject
        (fun t s => expandGo reg extractInject f t s [] [] [])) text 0
        ⟨st, [], [], [], false⟩ with
    | none => none
    | some (expanded, ps) =>
      if expanded ≠ text ∧ ps.loopD = false then
        expandGo reg extractInject f expanded ps.st
          (aP ++ ps.rP) (aA ++ ps.rA) (aI ++ ps.rI)
      else
        some (⟨expanded, aP ++ ps.rP, aA ++ ps.rA, aI ++ ps.rI⟩, ps.st)

/-- Default fuel of the top-level entry point: ample for every run this
file evaluates (the per-key budget of 15 bounds the useful depth). -/
def FUEL : Nat := 64

/-- `expandHashtags(text, registry)` with a fresh counts map and default
options (`extractInject = true`), as the plugin calls it for a message. -/
def expandHashtags (text : Str) (reg : Registry) :
    Option (ExpResult × EngineSt) :=
  expandGo reg true FUEL text ⟨[], []⟩ [] [] []

/-- The real `expandHashtags` never returns on this input (fresh counts,
default options): every fuel leaves the run unfinished. -/
def expandDivergesFresh (text : Str) (reg : Registry) : Prop :=
  ∀ fuel, expandGo reg true fuel text ⟨[], []⟩ [] [] [] = none

/-! ## Assembly (`assembleMessage`) -/

/-- `assembleMessage(result)`: join the non-empty sections — joined
prepend blocks, the text if it has non-whitespace content, joined append
blocks — with blank lines.  `result.inject` is not read. -/
def assembleMessage (r : ExpResult) : Str :=
  let parts :=
    (if r.prepend.length > 0 then [joinWith (str "\n\n") r.prepend] else []) ++
    (if trim r.text ≠ [] then [r.text] else []) ++
    (if r.append.length > 0 then [joinWith (str "\n\n") r.append] else [])
  joinWith (str "\n\n") parts

/-! ## Specification-side predicates -/

/-- Specification-side reading of the spec's failure condition for the
block parser: walking the tag matches left to right with at most one open
block, the parse *returns the failure sentinel* exactly on a closing tag
mismatching the open block or an opening tag inside an open block.  A
closing tag with no open block ends the walk without a failure verdict
(the implementation's loop never gets past it). -/
def walkFails : List Tag → Option BlockType → Bool
  | [], _ => false
  | t :: rest, cur =>
    if t.closing then
      match cur with
      | none => false
      | some ty => if ty ≠ t.ty then true else walkFails rest none
    else
      match cur with
      | some _ => true
      | none => walkFails rest (some t.ty)

/-- Monotone evolution of the counts map: no key's count decreases and no
binding is removed. -/
def countsMono (m m' : Counts) : Prop :=
  (∀ k, countGet m k ≤ countGet m' k) ∧
  (∀ k v, alGet m k = some v → ∃ v', alGet m' k = some v' ∧ v ≤ v')

/-! # Theorems

First a stock of small lemmas about the scanners and state maps, then one
theorem per claim. -/

/-- The parse loop never leaves the branch for a closing tag with no open
block: the `continue` does not advance the match cursor, so the loop state
repeats and only fuel is consumed. -/
theorem parseGo_stuck (content : Str) (t : Tag) (ht : t.closing = true)
    (rest : List Tag) (li : Nat) (inl : Str) (P A I : List Str) :
    ∀ f, parseGo content f (t :: rest) none li inl P A I = none := by
  intro f
  induction f with
  | zero => rfl
  | succ f ih => simp only [parseGo, ht, if_true]; exact ih

/-- C3: the spec says a closing tag with no open block is ignored and the
parse completes successfully.  The code instead never returns: on the
fragment content `"</append>"` the parse loop is still running after any
amount of fuel (the `continue` branch of `parseSnippetBlocks` skips the
`exec` call that would advance the regex cursor).  This contradicts the
parser's own comment ("ignore it, treat as inline content"): a code bug,
witnessed here by the non-termination of the embedded loop. -/
theorem claim_C3_orphan_close_diverges : parseDiverges (str "</append>") true := by
  intro fuel
  have h : findTags true (str "</append>") = [⟨0, true, BlockType.append, 9⟩] := rfl
  simp only [parseRun, h]
  exact parseGo_stuck _ _ rfl _ _ _ _ _ _ fuel

/-- C2: the spec says a top-level expand call terminates for every text
and registry, including fragments with arbitrary block markup.  It does
not: expanding `"#a"` against the registry `{a: "</append>"}` reaches the
block parser on `"</append>"`, whose loop never returns (see C3), so the
whole expansion never returns — for every fuel the embedded run is still
unfinished. -/
theorem claim_C2_termination_fails :
    expandDivergesFresh (str "#a") [(str "a", str "</append>")] := by
  intro fuel
  cases fuel with
  | zero => rfl
  | succ f => rfl

/-- C4: the spec says expand always returns a result.  On the text
`"x #b"` with registry `{b: "</prepend>"}` the expansion never returns
(the fragment's orphan closing tag makes the block parser loop forever),
so the "always returns" part of the claim fails on the code while being
clearly the intent — the same code bug as C3. -/
theorem claim_C4_always_returns_fails :
    expandDivergesFresh (str "x #b") [(str "b", str "</prepend>")] := by
  intro fuel
  cases fuel with
  | zero => rfl
  | succ f => rfl

/-- C6 counterexample: `assembleMessage` with empty prepend/append lists
does *not* return the text unchanged when the text is whitespace-only —
the text section is included only if it has non-whitespace content, so a
text of one space assembles to the empty string. -/
theorem claim_C6_counterexample :
    assembleMessage ⟨str " ", [], [], []⟩ ≠ str " " := by decide

/-- C6 (amended): inject blocks never affect the assembled output; and for
a result whose text has non-whitespace content, assembling with empty
prepend/append returns the text unchanged, and with both lists non-empty
returns prepend joined by blank lines, the text, and append joined by
blank lines, separated by blank lines. -/
theorem claim_C6_assembly :
    (∀ (r : ExpResult) (inj : List Str),
        assembleMessage ⟨r.text, r.prepend, r.append, inj⟩ = assembleMessage r) ∧
    (∀ r : ExpResult, trim r.text ≠ [] →
      (r.prepend = [] → r.append = [] → assembleMessage r = r.text) ∧
      (r.prepend ≠ [] → r.append ≠ [] →
        assembleMessage r =
          joinWith (str "\n\n") r.prepend ++ str "\n\n" ++ r.text ++ str "\n\n" ++
            joinWith (str "\n\n") r.append)) := by
  constructor
  · intro r inj; rfl
  · intro r h
    constructor
    · intro hp ha
      simp [assembleMessage, hp, ha, h, joinWith]
    · intro hp ha
      have hp' : r.prepend.length > 0 := List.length_pos.mpr hp
      have ha' : r.append.length > 0 := List.length_pos.mpr ha
      simp [assembleMessage, hp', ha', h, joinWith]

/-- C6 witness: the amended theorem applied at a concrete result. -/
theorem claim_C6_witness :
    assembleMessage ⟨str "T", [str "P"], [str "A"], [str "Z"]⟩ =
        assembleMessage ⟨str "T", [str "P"], [str "A"], []⟩ ∧
    assembleMessage ⟨str "T", [str "P"], [str "A"], []⟩ =
      joinWith (str "\n\n") [str "P"] ++ str "\n\n" ++ str "T" ++ str "\n\n" ++
        joinWith (str "\n\n") [str "A"] :=
  ⟨claim_C6_assembly.1 ⟨str "T", [str "P"], [str "A"], []⟩ [str "Z"],
   (claim_C6_assembly.2 ⟨str "T", [str "P"], [str "A"], []⟩ (by decide)).2
     (by decide) (by decide)⟩

/-- Scanner step: a character other than `#` is emitted unchanged. -/
theorem rmGo_ne_hash {σ : Type} (cb : Str → Str → σ → Option (Str × σ))
    {c : Char} (hc : c ≠ '#') (rest : Str) (s : σ) :
    rmGo cb (c :: rest) 0 s =
      match rmGo cb rest 0 s with
      | none => none
      | some (t, s') => some (c :: t, s') := by
  simp only [rmGo]
  rw [if_neg hc]

/-- Scanner step: a `#` not followed by a marker character is emitted
unchanged (the regex does not match there). -/
theorem rmGo_hash_nomark {σ : Type} (cb : Str → Str → σ → Option (Str × σ))
    {rest : Str} (h : rest.takeWhile isMarkerChar = []) (s : σ) :
    rmGo cb ('#' :: rest) 0 s =
      match rmGo cb rest 0 s with
      | none => none
      | some (t, s') => some ('#' :: t, s') := by
  simp only [rmGo, h, if_true]

/-- Scanner step: at a match `#name`, the callback's output is spliced in
and the name's characters are skipped. -/
theorem rmGo_hash_mark {σ : Type} (cb : Str → Str → σ → Option (Str × σ))
    {rest : Str} (h : rest.takeWhile isMarkerChar ≠ []) (s : σ) :
    rmGo cb ('#' :: rest) 0 s =
      match cb ('#' :: rest.takeWhile isMarkerChar) (rest.takeWhile isMarkerChar) s with
      | none => none
      | some (rep, s') =>
        match rmGo cb rest (rest.takeWhile isMarkerChar).length s' with
        | none => none
        | some (t, s'') => some (rep ++ t, s'') := by
  simp only [rmGo, if_true]
  rw [if_neg h]

/-- A text with no marker is passed through by the hashtag scanner
unchanged, with the callback never invoked. -/
theorem rmGo_id {σ : Type} (cb : Str → Str → σ → Option (Str × σ)) :
    ∀ (l : Str) (s : σ), hasMarker l = false → rmGo cb l 0 s = some (l, s) := by
  intro l
  induction l with
  | nil => intro s _; rfl
  | cons c rest ih =>
    intro s h
    have hsplit : hasMarker rest = false ∧ (c = '#' → rest.takeWhile isMarkerChar = []) := by
      cases rest with
      | nil => exact ⟨rfl, fun _ => rfl⟩
      | cons d rest' =>
        simp only [hasMarker, Bool.or_eq_false_iff, Bool.and_eq_false_iff,
          decide_eq_false_iff_not] at h
        refine ⟨h.2, fun hc => ?_⟩
        have hd : isMarkerChar d = false := by
          rcases h.1 with h1 | h1
          · exact absurd hc h1
          · exact h1
        simp [List.takeWhile_cons, hd]
    by_cases hc : c = '#'
    · subst hc
      rw [rmGo_hash_nomark cb (hsplit.2 rfl) s, ih s hsplit.1]
    · rw [rmGo_ne_hash cb hc rest s, ih s hsplit.1]

/-- Unfolding of one `while (hasChanges)` iteration of `expandHashtags`. -/
theorem expandGo_succ (reg : Registry) (inj : Bool) (f : Nat) (text : Str)
    (st : EngineSt) (aP aA aI : List Str) :
    expandGo reg inj (f + 1) text st aP aA aI =
      match rmGo (expandCbG reg inj (fun t s => expandGo reg inj f t s [] [] []))
          text 0 ⟨st, [], [], [], false⟩ with
      | none => none
      | some (expanded, ps) =>
        if expanded ≠ text ∧ ps.loopD = false then
          expandGo reg inj f expanded ps.st (aP ++ ps.rP) (aA ++ ps.rA) (aI ++ ps.rI)
        else some (⟨expanded, aP ++ ps.rP, aA ++ ps.rA, aI ++ ps.rI⟩, ps.st) := rfl

/-- C9: for every registry and every text containing no reference marker
(no `#` immediately followed by a character of `[a-z0-9-_]`, ASCII letters
of either case included), expansion returns the text unchanged with empty
prepend, append and inject lists — and an untouched engine state. -/
theorem claim_C9_identity (R : Registry) (T : Str) (h : hasMarker T = false) :
    expandHashtags T R = some (⟨T, [], [], []⟩, ⟨[], []⟩) := by
  show expandGo R true 64 T ⟨[], []⟩ [] [] [] = _
  rw [show (64 : Nat) = 63 + 1 from rfl, expandGo_succ, rmGo_id _ T _ h]
  simp

/-- C9 witness: a concrete marker-free text and registry. -/
theorem claim_C9_witness :
    hasMarker (str "no markers here, 100% plain") = false ∧
    expandHashtags (str "no markers here, 100% plain") [(str "a", str "b")] =
      some (⟨str "no markers here, 100% plain", [], [], []⟩, ⟨[], []⟩) :=
  ⟨by decide,
   claim_C9_identity [(str "a", str "b")] (str "no markers here, 100% plain")
     (by decide)⟩

/-- A successful `tryNames` returns the type of one of the candidate
names. -/
theorem tryNames_mem {names : List (Str × BlockType)} :
    ∀ {l : Str} {ty : BlockType} {n : Nat}, tryNames names l = some (ty, n) →
      ∃ nm, (nm, ty) ∈ names ∧ n = nm.length := by
  induction names with
  | nil => intro l ty n h; exact absurd h (by simp [tryNames])
  | cons p more ih =>
    intro l ty n h
    obtain ⟨nm, ty'⟩ := p
    simp only [tryNames] at h
    split at h
    · injection h with h'
      injection h' with h1 h2
      subst h1
      exact ⟨nm, List.mem_cons_self _ _, h2.symm⟩
    · obtain ⟨nm', hmem, hlen⟩ := ih h
      exact ⟨nm', List.mem_cons_of_mem _ hmem, hlen⟩

/-- A successful `tryTag` returns the type of one of the candidate
names. -/
theorem tryTag_mem {names : List (Str × BlockType)} {l : Str} {cl : Bool}
    {ty : BlockType} {n : Nat} (h : tryTag names l = some (cl, ty, n)) :
    ∃ nm, (nm, ty) ∈ names := by
  cases l with
  | nil => exact absurd h (by simp [tryTag])
  | cons c rest =>
    simp only [tryTag] at h
    by_cases hc : c = '<'
    · rw [if_pos hc] at h
      split at h
      · split at h
        · rename_i ty' n' heq
          injection h with h'
          injection h' with h1 h2
          injection h2 with h2a h2b
          obtain ⟨nm, hmem, -⟩ := tryNames_mem heq
          exact ⟨nm, h2a ▸ hmem⟩
        · split at h
          · rename_i ty' n' heq
            injection h with h'
            injection h' with h1 h2
            injection h2 with h2a h2b
            obtain ⟨nm, hmem, -⟩ := tryNames_mem heq
            exact ⟨nm, h2a ▸ hmem⟩
          · exact absurd h (by simp)
      · split at h
        · rename_i ty' n' heq
          injection h with h'
          injection h' with h1 h2
          injection h2 with h2a h2b
          obtain ⟨nm, hmem, -⟩ := tryNames_mem heq
          exact ⟨nm, h2a ▸ hmem⟩
        · exact absurd h (by simp)
    · rw [if_neg hc] at h
      exact absurd h (by simp)

/-- Every match produced by the tag scanner carries the type of a
candidate name. -/
theorem ftGo_mem_ty {names : List (Str × BlockType)} :
    ∀ (l : Str) (skip pos : Nat) (t : Tag), t ∈ ftGo names l skip pos →
      ∃ nm, (nm, t.ty) ∈ names := by
  intro l
  induction l with
  | nil => intro skip pos t h; exact absurd h (by simp [ftGo])
  | cons c rest ih =>
    intro skip pos t h
    cases skip with
    | succ skip' => exact ih skip' (pos + 1) t h
    | zero =>
      simp only [ftGo] at h
      rcases htag : tryTag names (c :: rest) with _ | ⟨cl, ty, len⟩ <;> rw [htag] at h
      · exact ih 0 (pos + 1) t h
      · rcases List.mem_cons.mp h with h' | h'
        · subst h'; exact tryTag_mem htag
        · exact ih (len - 1) (pos + 1) t h'

/-- With `extractInject = false` the tag alternation contains only
`prepend` and `append`: no scanned tag has type `inject`. -/
theorem findTags_false_no_inject {content : Str} {t : Tag}
    (h : t ∈ findTags false content) : t.ty ≠ BlockType.inject := by
  obtain ⟨nm, hmem⟩ := ftGo_mem_ty content 0 0 t h
  rw [show tagNames false =
    [(str "prepend", BlockType.prepend), (str "append", BlockType.append)] from rfl]
    at hmem
  rcases List.mem_cons.mp hmem with h' | h'
  · injection h' with h1 h2; rw [h2]; decide
  · rcases List.mem_cons.mp h' with h'' | h''
    · injection h'' with h1 h2; rw [h2]; decide
    · exact absurd h'' (List.not_mem_nil _)

/-- `pushB` leaves the inject list alone for non-inject block types. -/
theorem pushB_inject {P A I : List Str} {ty : BlockType} {bc : Str}
    (h : ty ≠ BlockType.inject) : (pushB P A I ty bc).2.2 = I := by
  by_cases hbc : bc = []
  · simp [pushB, hbc]
  · cases ty with
    | prepend => simp [pushB, hbc]
    | append => simp [pushB, hbc]
    | inject => exact absurd rfl h

/-- If no tag in the match list (and no open block) has type `inject`,
the parse loop returns its inject accumulator untouched. -/
theorem parseGo_inject_inv (content : Str) :
    ∀ (f : Nat) (tags : List Tag) (cur : Option OpenB) (li : Nat) (inl : Str)
      (P A I : List Str) (r : Parsed),
      (∀ t ∈ tags, t.ty ≠ BlockType.inject) →
      (∀ cb, cur = some cb → cb.ty ≠ BlockType.inject) →
      parseGo content f tags cur li inl P A I = some (some r) → r.inject = I := by
  intro f
  induction f with
  | zero =>
    intro tags cur li inl P A I r _ _ h
    exact absurd h (by simp [parseGo])
  | succ f ih =>
    intro tags cur li inl P A I r htags hcur h
    cases tags with
    | nil =>
      cases cur with
      | some cb =>
        simp only [parseGo] at h
        obtain h' := Option.some.inj (Option.some.inj h)
        rw [← h']
        exact pushB_inject (hcur cb rfl)
      | none =>
        simp only [parseGo] at h
        obtain h' := Option.some.inj (Option.some.inj h)
        rw [← h']
    | cons t rest =>
      have ht : t.ty ≠ BlockType.inject := htags t (List.mem_cons_self t rest)
      have hrest : ∀ t' ∈ rest, t'.ty ≠ BlockType.inject :=
        fun t' h' => htags t' (List.mem_cons_of_mem t h')
      cases cur with
      | none =>
        simp only [parseGo] at h
        by_cases hcl : t.closing
        · rw [if_pos hcl] at h
          exact ih (t :: rest) none li inl P A I r htags hcur h
        · rw [if_neg hcl] at h
          exact ih rest _ li _ P A I r hrest
            (by intro cb hcb; obtain h' := Option.some.inj hcb; rw [← h']; exact ht) h
      | some cb =>
        simp only [parseGo] at h
        by_cases hcl : t.closing
        · rw [if_pos hcl] at h
          by_cases hty : cb.ty ≠ t.ty
          · rw [if_pos hty] at h
            exact absurd (Option.some.inj h) (by simp)
          · rw [if_neg hty] at h
            have hI := @pushB_inject P A I cb.ty
              (trim (slice content cb.contentStart t.start)) (hcur cb rfl)
            have := ih rest none t.stop inl _ _ _ r hrest (by simp) h
            rw [this, hI]
        · rw [if_neg hcl] at h
          exact absurd (Option.some.inj h) (by simp)

/-- A content without recognized tags parses to its trimmed self with all
block lists empty. -/
theorem parse_no_tags {content : Str} {inj : Bool}
    (h : findTags inj content = []) :
    parseSnippetBlocks content inj = some (some ⟨trim content, [], [], []⟩) := by
  simp [parseSnippetBlocks, parseRun, h, parseGo, sliceFrom]

/-- C10 counterexample: with `extractInject = false`, inject tags placed
inside a prepend block end up in that block's content, not in the inline
text — the parse of `"<prepend><inject>x</inject></prepend>"` has an empty
inline part. -/
theorem claim_C10_counterexample :
    parseSnippetBlocks (str "<prepend><inject>x</inject></prepend>") false =
      some (some ⟨[], [str "<inject>x</inject>"], [], []⟩) := by rfl

/-- C10 (amended): with `extractInject = false`, inject tags are not
recognized at all — the tag scan produces no inject tag, every successful
parse has an empty inject list, and a content in which no prepend/append
tag is recognized (inject tags included) parses to its trimmed self as
inline text with all block lists empty. -/
theorem claim_C10_inject_disabled :
    (∀ (content : Str) (t : Tag), t ∈ findTags false content →
        t.ty ≠ BlockType.inject) ∧
    (∀ (content : Str) (r : Parsed),
        parseSnippetBlocks content false = some (some r) → r.inject = []) ∧
    (∀ content : Str, findTags false content = [] →
        parseSnippetBlocks content false = some (some ⟨trim content, [], [], []⟩)) := by
  refine ⟨fun content t h => findTags_false_no_inject h, fun content r h => ?_,
    fun content h => parse_no_tags h⟩
  exact parseGo_inject_inv content _ _ none 0 [] [] [] [] r
    (fun t ht => findTags_false_no_inject ht) (by simp) h

/-- C10 witness: a content whose only markup is inject tags, parsed with
`extractInject = false`: no tag is recognized and the inject tags stay
verbatim in the inline text. -/
theorem claim_C10_witness :
    parseSnippetBlocks (str "a <inject>x</inject> b") false =
      some (some ⟨trim (str "a <inject>x</inject> b"), [], [], []⟩) :=
  claim_C10_inject_disabled.2.2 (str "a <inject>x</inject> b") (by decide)

/-- `takeWhile` keeps a list all of whose elements satisfy the predicate. -/
theorem takeWhile_all {p : Char → Bool} :
    ∀ {K : Str}, (∀ c ∈ K, p c = true) → K.takeWhile p = K := by
  intro K
  induction K with
  | nil => intro _; rfl
  | cons c rest ih =>
    intro h
    rw [List.takeWhile_cons, h c (List.mem_cons_self _ _)]
    simp [ih fun c hc => h c (List.mem_cons_of_mem _ hc)]

/-- Lower-case marker characters are fixed by ASCII lower-casing. -/
theorem asciiLower_lower {c : Char} (h : isLowerMarker c = true) :
    asciiLower c = c := by
  simp only [isLowerMarker, decide_eq_true_eq] at h
  unfold asciiLower
  rw [if_neg]
  omega

/-- A string of lower-case marker characters is its own lower-casing. -/
theorem lowerStr_id {K : Str} (h : ∀ c ∈ K, isLowerMarker c = true) :
    lowerStr K = K := by
  induction K with
  | nil => rfl
  | cons c rest ih =>
    simp only [lowerStr, List.map_cons]
    rw [asciiLower_lower (h c (List.mem_cons_self _ _))]
    have := ih fun c hc => h c (List.mem_cons_of_mem _ hc)
    simp only [lowerStr] at this
    rw [this]

/-- Lower-case marker characters belong to the hashtag character class. -/
theorem isLowerMarker_marker {c : Char} (h : isLowerMarker c = true) :
    isMarkerChar c = true := by
  simp only [isLowerMarker, decide_eq_true_eq] at h
  simp only [isMarkerChar, decide_eq_true_eq]
  omega

/-- The scanner silently consumes exactly the skipped prefix. -/
theorem rmGo_skip_pre {σ : Type} (cb : Str → Str → σ → Option (Str × σ)) :
    ∀ (pre l : Str) (s : σ), rmGo cb (pre ++ l) pre.length s = rmGo cb l 0 s := by
  intro pre
  induction pre with
  | nil => intro l s; rfl
  | cons c rest ih =>
    intro l s
    show rmGo cb (rest ++ l) rest.length s = _
    exact ih l s

/-- A text that is exactly one marker `#K` is replaced by exactly one
callback invocation. -/
theorem rmGo_marker_end {σ : Type} (cb : Str → Str → σ → Option (Str × σ))
    {K : Str} (hK : K ≠ []) (hmk : ∀ c ∈ K, isMarkerChar c = true) (s : σ) :
    rmGo cb ('#' :: K) 0 s = cb ('#' :: K) K s := by
  have htw : K.takeWhile isMarkerChar = K := takeWhile_all hmk
  rw [rmGo_hash_mark cb (by rw [htw]; exact hK) s, htw]
  cases hcb : cb ('#' :: K) K s with
  | none => rfl
  | some v =>
    obtain ⟨rep, s'⟩ := v
    have hsk : rmGo cb K K.length s' = some ([], s') := by
      calc rmGo cb K K.length s' = rmGo cb (K ++ []) K.length s' := by simp
        _ = rmGo cb [] 0 s' := rmGo_skip_pre cb K [] s'
        _ = some ([], s') := rfl
    simp [hsk]

/-- The parse loop returns the failure sentinel (the source's `null`)
exactly when the tag walk meets a mismatched closing tag or a nested
opening tag, provided the fuel covers the match list. -/
theorem parseGo_fail_iff (content : Str) :
    ∀ (tags : List Tag) (f : Nat) (cur : Option OpenB) (li : Nat) (inl : Str)
      (P A I : List Str), tags.length < f →
      (parseGo content f tags cur li inl P A I = some none ↔
        walkFails tags (cur.map OpenB.ty) = true) := by
  intro tags
  induction tags with
  | nil =>
    intro f cur li inl P A I hf
    obtain ⟨f', rfl⟩ : ∃ f', f = f' + 1 := ⟨f - 1, by omega⟩
    cases cur with
    | some cb => simp [parseGo, walkFails]
    | none => simp [parseGo, walkFails]
  | cons t rest ih =>
    intro f cur li inl P A I hf
    obtain ⟨f', rfl⟩ : ∃ f', f = f' + 1 := ⟨f - 1, by omega⟩
    have hf' : rest.length < f' := by
      simp only [List.length_cons] at hf; omega
    by_cases hcl : t.closing
    · cases cur with
      | none =>
        rw [show parseGo content (f' + 1) (t :: rest) none li inl P A I =
          parseGo content f' (t :: rest) none li inl P A I by
            simp only [parseGo, hcl, if_true]]
        rw [parseGo_stuck content t hcl rest li inl P A I f']
        simp [walkFails, hcl]
      | some cb =>
        simp only [parseGo, hcl, if_true]
        by_cases hty : cb.ty ≠ t.ty
        · rw [if_pos hty]
          simp [walkFails, hcl, hty]
        · rw [if_neg hty]
          rw [ih f' none t.stop inl _ _ _ hf']
          have hty' : cb.ty = t.ty := not_ne_iff.mp hty
          simp [walkFails, hcl, hty']
    · cases cur with
      | some cb =>
        simp [parseGo, hcl, walkFails]
      | none =>
        simp only [parseGo, hcl, if_false, Bool.false_eq_true]
        rw [ih f' (some ⟨t.ty, t.start, t.stop⟩) li _ P A I hf']
        simp [walkFails, hcl]

/-- C7: the block parser fails exactly on a mismatched closing tag or an
opening tag inside an open block (a closing tag with no open block never
produces the failure sentinel — the loop never passes it); and when a
registered fragment's content fails to parse, expanding a reference to it
leaves the marker unchanged, emits one parse-failure warning tagged with
the key, counts the attempt, and returns normally. -/
theorem claim_C7_malformed :
    (∀ (content : Str) (inj : Bool),
        parseSnippetBlocks content inj = some none ↔
          walkFails (findTags inj content) none = true) ∧
    (∀ key content : Str, key ≠ [] → (∀ c ∈ key, isLowerMarker c = true) →
        parseSnippetBlocks content true = some none →
        expandHashtags ('#' :: key) [(key, content)] =
          some (⟨'#' :: key, [], [], []⟩,
            ⟨[(key, 1)], [Warning.parseFail key]⟩)) := by
  constructor
  · intro content inj
    have := parseGo_fail_iff content (findTags inj content)
      ((findTags inj content).length + 1) none 0 [] [] [] [] (by omega)
    simpa [parseSnippetBlocks, parseRun] using this
  · intro key content hK hlow hfail
    show expandGo _ true 64 _ _ [] [] [] = _
    rw [show (64 : Nat) = 63 + 1 from rfl, expandGo_succ]
    rw [rmGo_marker_end _ hK (fun c hc => isLowerMarker_marker (hlow c hc)) _]
    have hcb : expandCbG [(key, content)] true
        (fun t s => expandGo [(key, content)] true 63 t s [] [] []) ('#' :: key) key
        ⟨⟨[], []⟩, [], [], [], false⟩ =
        some ('#' :: key,
          ⟨⟨[(key, 1)], [Warning.parseFail key]⟩, [], [], [], false⟩) := by
      simp only [expandCbG, lowerStr_id hlow]
      rw [show alGet [(key, content)] key = some content by simp [alGet]]
      dsimp only
      rw [if_neg (by simp [countGet, alGet])]
      rw [hfail]
      rfl
    rw [hcb]
    dsimp only
    rw [if_neg (by simp)]
    simp

/-- C7 witness: the spec's own malformed fragment
`"<prepend>text</append>"`, both as a parse-failure characterization
instance and as the unexpanded-marker behaviour of a reference to it. -/
theorem claim_C7_witness :
    (parseSnippetBlocks (str "<prepend>text</append>") true = some none ↔
      walkFails (findTags true (str "<prepend>text</append>")) none = true) ∧
    expandHashtags ('#' :: str "bad") [(str "bad", str "<prepend>text</append>")] =
      some (⟨'#' :: str "bad", [], [], []⟩,
        ⟨[(str "bad", 1)], [Warning.parseFail (str "bad")]⟩) :=
  ⟨claim_C7_malformed.1 (str "<prepend>text</append>") true,
   claim_C7_malformed.2 (str "bad") (str "<prepend>text</append>")
     (by decide) (by decide) (by decide)⟩

theorem countsMono_refl (m : Counts) : countsMono m m :=
  ⟨fun _ => le_refl _, fun _ v h => ⟨v, h, le_refl v⟩⟩

theorem countsMono_trans (a b c : Counts) :
    countsMono a b → countsMono b c → countsMono a c := by
  intro h1 h2
  refine ⟨fun k => le_trans (h1.1 k) (h2.1 k), fun k v hv => ?_⟩
  obtain ⟨v1, hb, hle1⟩ := h1.2 k v hv
  obtain ⟨v2, hcc, hle2⟩ := h2.2 k v1 hb
  exact ⟨v2, hcc, le_trans hle1 hle2⟩

theorem alGet_countsSet_self (m : Counts) (k : Str) (v : Nat) :
    alGet (countsSet m k v) k = some v := by
  induction m with
  | nil => simp [countsSet, alGet]
  | cons p rest ih =>
    obtain ⟨k', v'⟩ := p
    by_cases h : k' = k
    · simp [countsSet, h, alGet]
    · simp [countsSet, h, alGet, ih]

theorem alGet_countsSet_ne (m : Counts) (k : Str) (v : Nat) (k2 : Str)
    (h : k2 ≠ k) : alGet (countsSet m k v) k2 = alGet m k2 := by
  induction m with
  | nil =>
    simp only [countsSet, alGet]
    rw [if_neg (fun he => h he.symm)]
  | cons p rest ih =>
    obtain ⟨k', v'⟩ := p
    by_cases hk : k' = k
    · simp only [countsSet, if_pos hk, alGet]
      have hne : ¬k' = k2 := fun he => h (he.symm.trans hk)
      rw [if_neg hne, if_neg hne]
    · simp only [countsSet, if_neg hk, alGet]
      by_cases hq : k' = k2
      · rw [if_pos hq, if_pos hq]
      · rw [if_neg hq, if_neg hq]
        exact ih

/-- Overwriting a key with a value at least its current count is a
monotone step on the counts map. -/
theorem countsMono_set (m : Counts) (k : Str) (v : Nat)
    (hv : countGet m k ≤ v) : countsMono m (countsSet m k v) := by
  constructor
  · intro k2
    by_cases h : k2 = k
    · subst h
      have : countGet (countsSet m k2 v) k2 = v := by
        rw [countGet, alGet_countsSet_self]; rfl
      rw [this]; exact hv
    · rw [show countGet (countsSet m k v) k2 = countGet m k2 by
        rw [countGet, alGet_countsSet_ne m k v k2 h, countGet]]
  · intro k2 v2 h2
    by_cases h : k2 = k
    · subst h
      refine ⟨v, alGet_countsSet_self m k2 v, ?_⟩
      have hv2 : countGet m k2 = v2 := by rw [countGet, h2]; rfl
      omega
    · exact ⟨v2, by rw [alGet_countsSet_ne m k v k2 h]; exact h2, le_refl _⟩

/-- Preservation of a reflexive-transitive relation on the threaded state
across one scanner pass, given the callback preserves it. -/
theorem rmGo_rel {σ : Type} (R : σ → σ → Prop) (hrefl : ∀ s, R s s)
    (htrans : ∀ a b c, R a b → R b c → R a c)
    (cb : Str → Str → σ → Option (Str × σ))
    (hcb : ∀ m n s rep s', cb m n s = some (rep, s') → R s s') :
    ∀ (l : Str) (skip : Nat) (s : σ) (t : Str) (s' : σ),
      rmGo cb l skip s = some (t, s') → R s s' := by
  intro l
  induction l with
  | nil =>
    intro skip s t s' h
    have h' : (([], s) : Str × σ) = (t, s') := Option.some.inj h
    injection h' with h1 h2
    exact h2 ▸ hrefl s
  | cons c rest ih =>
    intro skip s t s' h
    cases skip with
    | succ sk => exact ih sk s t s' h
    | zero =>
      by_cases hc : c = '#'
      · subst hc
        by_cases hn : rest.takeWhile isMarkerChar = []
        · rw [rmGo_hash_nomark cb hn s] at h
          cases hr : rmGo cb rest 0 s with
          | none => rw [hr] at h; exact absurd h (by simp)
          | some v =>
            obtain ⟨t1, s1⟩ := v
            rw [hr] at h
            have hR := ih 0 s t1 s1 hr
            injection h with h''
            injection h'' with h1 h2
            exact h2 ▸ hR
        · rw [rmGo_hash_mark cb hn s] at h
          cases hcb1 : cb ('#' :: rest.takeWhile isMarkerChar)
              (rest.takeWhile isMarkerChar) s with
          | none => rw [hcb1] at h; exact absurd h (by simp)
          | some v =>
            obtain ⟨rep, s1⟩ := v
            rw [hcb1] at h
            dsimp only at h
            have hR1 : R s s1 := hcb _ _ _ _ _ hcb1
            cases hr : rmGo cb rest (rest.takeWhile isMarkerChar).length s1 with
            | none => rw [hr] at h; exact absurd h (by simp)
            | some v2 =>
              obtain ⟨t2, s2⟩ := v2
              rw [hr] at h
              have hR2 : R s1 s2 := ih _ s1 t2 s2 hr
              injection h with h''
              injection h'' with h1 h2
              exact h2 ▸ htrans _ _ _ hR1 hR2
      · rw [rmGo_ne_hash cb hc rest s] at h
        cases hr : rmGo cb rest 0 s with
        | none => rw [hr] at h; exact absurd h (by simp)
        | some v =>
          obtain ⟨t1, s1⟩ := v
          rw [hr] at h
          have hR := ih 0 s t1 s1 hr
          injection h with h''
          injection h'' with h1 h2
          exact h2 ▸ hR

/-- C8: the per-key count map evolves monotonically over one whole
invocation — it is threaded (shared) through every recursive call and
every pass, every update writes `current + 1`, and whenever the call
completes, no key's count has decreased and no binding has been removed,
whatever happened in the branches in between. -/
theorem claim_C8_counts_monotone :
    ∀ (reg : Registry) (inj : Bool) (fuel : Nat) (text : Str) (st : EngineSt)
      (aP aA aI : List Str) (r : ExpResult) (st' : EngineSt),
      expandGo reg inj fuel text st aP aA aI = some (r, st') →
      countsMono st.counts st'.counts := by
  intro reg inj fuel
  induction fuel with
  | zero =>
    intro text st aP aA aI r st' h
    exact absurd h (by simp [expandGo])
  | succ f ih =>
    intro text st aP aA aI r st' h
    rw [expandGo_succ] at h
    have hcb : ∀ m n ps rep ps', expandCbG reg inj
        (fun t s => expandGo reg inj f t s [] [] []) m n ps = some (rep, ps') →
        countsMono ps.st.counts ps'.st.counts := by
      intro m n ps rep ps' hc
      simp only [expandCbG] at hc
      cases hg : alGet reg (lowerStr n) with
      | none =>
        rw [hg] at hc
        injection hc with h''
        injection h'' with h1 h2
        exact h2 ▸ countsMono_refl _
      | some content =>
        rw [hg] at hc
        dsimp only at hc
        by_cases hlt : 15 < countGet ps.st.counts (lowerStr n) + 1
        · rw [if_pos hlt] at hc
          injection hc with h''
          injection h'' with h1 h2
          rw [← h2]
          exact countsMono_refl _
        · rw [if_neg hlt] at hc
          have hstep : countsMono ps.st.counts
              (countsSet ps.st.counts (lowerStr n)
                (countGet ps.st.counts (lowerStr n) + 1)) :=
            countsMono_set _ _ _ (Nat.le_succ _)
          cases hp : parseSnippetBlocks content inj with
          | none => rw [hp] at hc; exact absurd hc (by simp)
          | some po =>
            rw [hp] at hc
            cases po with
            | none =>
              injection hc with h''
              injection h'' with h1 h2
              rw [← h2]
              exact hstep
            | some parsed =>
              dsimp only at hc
              cases hn : expandGo reg inj f parsed.inline
                  ⟨countsSet ps.st.counts (lowerStr n)
                    (countGet ps.st.counts (lowerStr n) + 1), ps.st.warnings⟩
                  [] [] [] with
              | none => rw [hn] at hc; exact absurd hc (by simp)
              | some v =>
                obtain ⟨res, st2⟩ := v
                rw [hn] at hc
                injection hc with h''
                injection h'' with h1 h2
                have hnest := ih parsed.inline _ [] [] [] res st2 hn
                rw [← h2]
                exact countsMono_trans _ _ _ hstep hnest
    cases hrm : rmGo (expandCbG reg inj (fun t s => expandGo reg inj f t s [] [] []))
        text 0 ⟨st, [], [], [], false⟩ with
    | none => rw [hrm] at h; exact absurd h (by simp)
    | some v =>
      obtain ⟨expanded, ps⟩ := v
      rw [hrm] at h
      have hR : countsMono st.counts ps.st.counts :=
        rmGo_rel (fun a b => countsMono a.st.counts b.st.counts)
          (fun s => countsMono_refl s.st.counts)
          (fun a b c h1 h2 =>
            countsMono_trans a.st.counts b.st.counts c.st.counts h1 h2)
          _ hcb text 0 ⟨st, [], [], [], false⟩ expanded ps hrm
      dsimp only at h
      by_cases hcond : expanded ≠ text ∧ ps.loopD = false
      · rw [if_pos hcond] at h
        exact countsMono_trans _ _ _ hR (ih expanded ps.st _ _ _ r st' h)
      · rw [if_neg hcond] at h
        injection h with h''
        injection h'' with h1 h2
        rw [← h2]
        exact hR

/-- C8 witness: a concrete completed expansion, with the monotonicity
conclusion obtained from the theorem. -/
theorem claim_C8_witness :
    expandGo [(str "a", str "b")] true 5 (str "#a") ⟨[], []⟩ [] [] [] =
        some (⟨str "b", [], [], []⟩, ⟨[(str "a", 1)], []⟩) ∧
    countsMono [] [(str "a", 1)] :=
  ⟨rfl,
   claim_C8_counts_monotone [(str "a", str "b")] true 5 (str "#a") ⟨[], []⟩
     [] [] [] ⟨str "b", [], [], []⟩ ⟨[(str "a", 1)], []⟩ rfl⟩

theorem mem_of_getLast? {l : Str} {a : Char} (h : l.getLast? = some a) :
    a ∈ l := by
  induction l with
  | nil => exact absurd h (by simp)
  | cons c rest ih =>
    cases rest with
    | nil =>
      simp only [List.getLast?_singleton] at h
      injection h with h'
      simp [h']
    | cons d rest' =>
      rw [List.getLast?_cons_cons] at h
      exact List.mem_cons_of_mem _ (ih h)

theorem dropWhile_eq_self_of_head {p : Char → Bool} {l : Str}
    (h : ∀ a, l.head? = some a → p a = false) : l.dropWhile p = l := by
  cases l with
  | nil => rfl
  | cons c rest =>
    rw [List.dropWhile_cons, h c rfl]
    simp

/-- A string whose first and last characters are not whitespace is its own
trim. -/
theorem trim_eq_self_of_ends {l : Str}
    (h1 : ∀ a, l.head? = some a → isWS a = false)
    (h2 : ∀ a, l.getLast? = some a → isWS a = false) : trim l = l := by
  unfold trim
  rw [dropWhile_eq_self_of_head h1]
  rw [dropWhile_eq_self_of_head (by
    intro a ha
    rw [List.head?_reverse] at ha
    exact h2 a ha)]
  exact List.reverse_reverse l

theorem lowerMarker_ne_lt {c : Char} (h : isLowerMarker c = true) : c ≠ '<' := by
  intro hc
  rw [hc] at h
  exact absurd h (by decide)

theorem lowerMarker_not_ws {c : Char} (h : isLowerMarker c = true) :
    isWS c = false := by
  simp only [isLowerMarker, decide_eq_true_eq] at h
  simp only [isWS, decide_eq_false_iff_not]
  omega

theorem tryTag_none_of_ne {names : List (Str × BlockType)} {c : Char}
    (hc : c ≠ '<') (rest : Str) : tryTag names (c :: rest) = none := by
  simp [tryTag, hc]

theorem ftGo_nil_of_no_lt {names : List (Str × BlockType)} :
    ∀ (l : Str), (∀ c ∈ l, c ≠ '<') → ∀ (skip pos : Nat),
      ftGo names l skip pos = [] := by
  intro l
  induction l with
  | nil => intro _ skip pos; cases skip <;> rfl
  | cons c rest ih =>
    intro h skip pos
    have hrest : ∀ c ∈ rest, c ≠ '<' := fun c hc => h c (List.mem_cons_of_mem _ hc)
    cases skip with
    | succ sk => exact ih hrest sk (pos + 1)
    | zero =>
      simp only [ftGo, tryTag_none_of_ne (h c (List.mem_cons_self _ _)) rest]
      exact ih hrest 0 (pos + 1)

theorem findTags_nil_of_no_lt {inj : Bool} {l : Str}
    (h : ∀ c ∈ l, c ≠ '<') : findTags inj l = [] :=
  ftGo_nil_of_no_lt l h 0 0

/-- A fragment content of the concrete shape `"X #" ++ K` (with `K` a
lower-case key) has no markup and no surrounding whitespace: it parses to
itself with empty block lists. -/
theorem parse_XK {K : Str} (hK : K ≠ [])
    (hlow : ∀ c ∈ K, isLowerMarker c = true) :
    parseSnippetBlocks (str "X #" ++ K) true =
      some (some ⟨str "X #" ++ K, [], [], []⟩) := by
  have hnl : ∀ c ∈ (str "X #" ++ K), c ≠ '<' := by
    intro c hc
    rcases List.mem_append.mp hc with h' | h'
    · fin_cases h' <;> decide
    · exact lowerMarker_ne_lt (hlow c h')
  rw [parse_no_tags (findTags_nil_of_no_lt hnl)]
  rw [trim_eq_self_of_ends]
  · intro a ha
    injection ha with h'
    rw [← h']
    decide
  · intro a ha
    obtain ⟨b, hb⟩ : ∃ b, K.getLast? = some b := by
      cases hKl : K.getLast? with
      | none => exact absurd (List.getLast?_eq_none_iff.mp hKl) hK
      | some b => exact ⟨b, rfl⟩
    rw [List.getLast?_append, hb,
      show ((some b).or (List.getLast? (str "X #")) = some b) from rfl] at ha
    injection ha with h'
    subst h'
    exact lowerMarker_not_ws (hlow b (mem_of_getLast? hb))

theorem mem_repeatStr {c : Char} {s : Str} :
    ∀ {n : Nat}, c ∈ repeatStr n s → c ∈ s := by
  intro n
  induction n with
  | zero => intro h; exact absurd h (by simp [repeatStr])
  | succ n ih =>
    intro h
    rcases List.mem_append.mp h with h' | h'
    · exact h'
    · exact ih h'

theorem length_repeatStr (s : Str) : ∀ n, (repeatStr n s).length = n * s.length := by
  intro n
  induction n with
  | zero => simp [repeatStr]
  | succ n ih => simp [repeatStr, ih, Nat.succ_mul, Nat.add_comm]

/-- A `#`-free prefix is copied through by the scanner. -/
theorem rmGo_prefix_noHash {σ : Type} (cb : Str → Str → σ → Option (Str × σ)) :
    ∀ (pre : Str), (∀ c ∈ pre, c ≠ '#') → ∀ (l : Str) (s : σ),
      rmGo cb (pre ++ l) 0 s =
        match rmGo cb l 0 s with
        | none => none
        | some (t, s') => some (pre ++ t, s') := by
  intro pre
  induction pre with
  | nil =>
    intro _ l s
    cases h : rmGo cb l 0 s with
    | none => exact h
    | some v => obtain ⟨t, s'⟩ := v; exact h
  | cons c pre' ih =>
    intro hpre l s
    have hc : c ≠ '#' := hpre c (List.mem_cons_self _ _)
    rw [List.cons_append, rmGo_ne_hash cb hc (pre' ++ l) s]
    rw [ih (fun c hc => hpre c (List.mem_cons_of_mem _ hc)) l s]
    cases h : rmGo cb l 0 s with
    | none => rfl
    | some v => obtain ⟨t, s'⟩ := v; rfl

/-- A text of the shape `prefix ++ #K` with a `#`-free prefix triggers
exactly one callback invocation. -/
theorem rmGo_prefix_marker {σ : Type} (cb : Str → Str → σ → Option (Str × σ))
    (pre : Str) (hpre : ∀ c ∈ pre, c ≠ '#') {K : Str} (hK : K ≠ [])
    (hmk : ∀ c ∈ K, isMarkerChar c = true) (s : σ) :
    rmGo cb (pre ++ ('#' :: K)) 0 s =
      match cb ('#' :: K) K s with
      | none => none
      | some (rep, s') => some (pre ++ rep, s') := by
  rw [rmGo_prefix_noHash cb pre hpre _ s, rmGo_marker_end cb hK hmk s]

/-- Callback behaviour on the self-referencing registry when the key's
budget is exhausted: warn, raise the pass's loop flag, keep the marker. -/
theorem expandCb_budget {K : Str} (hlow : ∀ c ∈ K, isLowerMarker c = true)
    (nest : Str → EngineSt → Option (ExpResult × EngineSt)) (ps : PassSt)
    (hc : countGet ps.st.counts K = 15) :
    expandCbG [(K, str "X #" ++ K)] true nest ('#' :: K) K ps =
      some ('#' :: K,
        ⟨⟨ps.st.counts, ps.st.warnings ++ [Warning.loop K 16]⟩,
          ps.rP, ps.rA, ps.rI, true⟩) := by
  simp only [expandCbG, lowerStr_id hlow]
  rw [show alGet [(K, str "X #" ++ K)] K = some (str "X #" ++ K) by simp [alGet]]
  dsimp only
  rw [hc]
  rw [if_pos (by omega)]

/-- Callback behaviour on the self-referencing registry while budget
remains: count, parse (trivially), recurse on the fragment's inline text,
splice the nested result. -/
theorem expandCb_success {K : Str} (hK : K ≠ [])
    (hlow : ∀ c ∈ K, isLowerMarker c = true)
    (nest : Str → EngineSt → Option (ExpResult × EngineSt)) (ps : PassSt)
    (c : Nat) (hc : countGet ps.st.counts K = c) (hle : c + 1 ≤ 15)
    (resT : Str) (st2 : EngineSt)
    (hnest : nest (str "X #" ++ K)
        ⟨countsSet ps.st.counts K (c + 1), ps.st.warnings⟩ =
      some (⟨resT, [], [], []⟩, st2)) :
    expandCbG [(K, str "X #" ++ K)] true nest ('#' :: K) K ps =
      some (resT, ⟨st2, ps.rP, ps.rA, ps.rI, ps.loopD⟩) := by
  simp only [expandCbG, lowerStr_id hlow]
  rw [show alGet [(K, str "X #" ++ K)] K = some (str "X #" ++ K) by simp [alGet]]
  dsimp only
  rw [hc]
  rw [if_neg (by omega)]
  rw [parse_XK hK hlow]
  dsimp only
  rw [hnest]
  simp

theorem mem_Xspace_ne_hash {c : Char} (h : c ∈ str "X ") : c ≠ '#' := by
  have h' : c ∈ ['X', ' '] := h
  simp only [List.mem_cons, List.not_mem_nil, or_false] at h'
  rcases h' with rfl | rfl <;> decide

/-- The scanner on the concrete content `"X #" ++ K`: one marker after a
`#`-free prefix. -/
theorem rmGo_XK {σ : Type} (cb : Str → Str → σ → Option (Str × σ))
    {K : Str} (hK : K ≠ []) (hmk : ∀ c ∈ K, isMarkerChar c = true) (s : σ) :
    rmGo cb (str "X #" ++ K) 0 s =
      match cb ('#' :: K) K s with
      | none => none
      | some (rep, s') => some (str "X " ++ rep, s') :=
  rmGo_prefix_marker cb (str "X ") (fun _ hc => mem_Xspace_ne_hash hc) hK hmk s

/-- Once the key's counter has reached 15, a pass over any text of the
shape `"X " * m ++ "#K"` changes nothing: the single marker hits the
budget, one loop warning is emitted, and the loop stops. -/
theorem expand_loop_pass {K : Str} (hK : K ≠ [])
    (hlow : ∀ c ∈ K, isLowerMarker c = true) (m f : Nat) (st : EngineSt)
    (aP aA aI : List Str) (hc : countGet st.counts K = 15) :
    expandGo [(K, str "X #" ++ K)] true (f + 1)
        (repeatStr m (str "X ") ++ ('#' :: K)) st aP aA aI =
      some (⟨repeatStr m (str "X ") ++ ('#' :: K), aP, aA, aI⟩,
        ⟨st.counts, st.warnings ++ [Warning.loop K 16]⟩) := by
  have hmk : ∀ c ∈ K, isMarkerChar c = true :=
    fun c hc' => isLowerMarker_marker (hlow c hc')
  have hpre : ∀ c ∈ repeatStr m (str "X "), c ≠ '#' :=
    fun c hc' => mem_Xspace_ne_hash (mem_repeatStr hc')
  rw [expandGo_succ]
  rw [rmGo_prefix_marker _ (repeatStr m (str "X ")) hpre hK hmk _]
  rw [expandCb_budget hlow _ ⟨st, [], [], [], false⟩ hc]
  dsimp only
  rw [if_neg (by simp)]
  simp

/-- The self-reference ladder: starting at count `15 - n`, expanding the
fragment content `"X #K"` yields `"X " * (n + 1) ++ "#K"` and drives the
key's count up to 15. -/
theorem expand_main {K : Str} (hK : K ≠ [])
    (hlow : ∀ c ∈ K, isLowerMarker c = true) :
    ∀ n : Nat, n ≤ 14 → ∀ (f : Nat) (st : EngineSt),
      countGet st.counts K = 15 - n →
      ∃ st' : EngineSt,
        expandGo [(K, str "X #" ++ K)] true (f + n + 1) (str "X #" ++ K)
            st [] [] [] =
          some (⟨repeatStr (n + 1) (str "X ") ++ ('#' :: K), [], [], []⟩, st') ∧
        countGet st'.counts K = 15 := by
  intro n
  induction n with
  | zero =>
    intro _ f st hc
    refine ⟨⟨st.counts, st.warnings ++ [Warning.loop K 16]⟩, ?_, by simpa using hc⟩
    exact expand_loop_pass hK hlow 1 f st [] [] [] (by simpa using hc)
  | succ n ihn =>
    intro hn f st hc
    have hn' : n ≤ 14 := by omega
    obtain ⟨st2, hnest, hc2⟩ := ihn hn' f
      ⟨countsSet st.counts K (15 - (n + 1) + 1), st.warnings⟩
      (by rw [countGet, alGet_countsSet_self]; simp; omega)
    refine ⟨⟨st2.counts, st2.warnings ++ [Warning.loop K 16]⟩, ?_, by simpa using hc2⟩
    rw [show f + (n + 1) + 1 = (f + n + 1) + 1 by omega]
    rw [expandGo_succ]
    have hmk : ∀ c ∈ K, isMarkerChar c = true :=
      fun c hc' => isLowerMarker_marker (hlow c hc')
    rw [rmGo_XK _ hK hmk _]
    rw [expandCb_success hK hlow _ ⟨st, [], [], [], false⟩ (15 - (n + 1)) hc
      (by omega) _ st2 hnest]
    dsimp only
    have hne : str "X " ++ (repeatStr (n + 1) (str "X ") ++ ('#' :: K)) ≠
        str "X #" ++ K := by
      intro heq
      have hlen := congrArg List.length heq
      simp only [List.length_append, List.length_cons, length_repeatStr] at hlen
      rw [show (str "X ").length = 2 from rfl,
        show (str "X #").length = 3 from rfl] at hlen
      omega
    rw [if_pos ⟨hne, rfl⟩]
    rw [show str "X " ++ (repeatStr (n + 1) (str "X ") ++ ('#' :: K)) =
      repeatStr (n + 1 + 1) (str "X ") ++ ('#' :: K) from
        (List.append_assoc _ _ _).symm]
    rw [expand_loop_pass hK hlow (n + 1 + 1) (f + n) st2 _ _ _ hc2]
    rfl

/-- C1: for any non-empty lower-case key `K`, expanding `"#K"` against
the single-entry registry `{K: "X #K"}` with fresh counts yields the text
`"X "` repeated exactly 15 times followed by `"#K"` (and no blocks): the
shared per-key counter allows 15 successful expansions, then freezes the
marker verbatim. -/
theorem claim_C1_self_reference (K : Str) (hK : K ≠ [])
    (hlow : ∀ c ∈ K, isLowerMarker c = true) :
    ∃ st' : EngineSt,
      expandHashtags ('#' :: K) [(K, str "X #" ++ K)] =
        some (⟨repeatStr 15 (str "X ") ++ ('#' :: K), [], [], []⟩, st') := by
  have hmk : ∀ c ∈ K, isMarkerChar c = true :=
    fun c hc' => isLowerMarker_marker (hlow c hc')
  show ∃ st', expandGo _ true 64 ('#' :: K) ⟨[], []⟩ [] [] [] = _
  obtain ⟨st2, hnest, hc2⟩ := expand_main hK hlow 14 (by omega) 48
    ⟨countsSet [] K (0 + 1), []⟩ (by rw [countGet, alGet_countsSet_self]; rfl)
  refine ⟨⟨st2.counts, st2.warnings ++ [Warning.loop K 16]⟩, ?_⟩
  rw [show (64 : Nat) = 63 + 1 from rfl, expandGo_succ]
  rw [rmGo_marker_end _ hK hmk _]
  rw [expandCb_success hK hlow _ ⟨⟨[], []⟩, [], [], [], false⟩ 0 rfl (by omega)
    _ st2 hnest]
  dsimp only
  have hne : repeatStr (14 + 1) (str "X ") ++ ('#' :: K) ≠ '#' :: K := by
    intro heq
    have hlen := congrArg List.length heq
    simp only [List.length_append, List.length_cons, length_repeatStr] at hlen
    rw [show (str "X ").length = 2 from rfl] at hlen
    omega
  rw [if_pos ⟨hne, rfl⟩]
  rw [show (63 : Nat) = 62 + 1 from rfl]
  rw [expand_loop_pass hK hlow (14 + 1) 62 st2 _ _ _ hc2]
  rfl

/-- C1 witness: the theorem at the concrete key `self`. -/
theorem claim_C1_witness :
    (str "self" ≠ [] ∧ ∀ c ∈ str "self", isLowerMarker c = true) ∧
    ∃ st' : EngineSt,
      expandHashtags ('#' :: str "self") [(str "self", str "X #" ++ str "self")] =
        some (⟨repeatStr 15 (str "X ") ++ ('#' :: str "self"), [], [], []⟩, st') :=
  ⟨⟨by decide, by decide⟩,
   claim_C1_self_reference (str "self") (by decide) (by decide)⟩

theorem takeWhile_append_stop {p : Char → Bool} {N1 : Str} {d : Char}
    (h1 : ∀ c ∈ N1, p c = true) (hd : p d = false) :
    ∀ rest : Str, (N1 ++ (d :: rest)).takeWhile p = N1 := by
  induction N1 with
  | nil => intro rest; simp [List.takeWhile_cons, hd]
  | cons c N1' ih =>
    intro rest
    rw [List.cons_append, List.takeWhile_cons, h1 c (List.mem_cons_self _ _)]
    simp only [if_true]
    rw [ih (fun c hc => h1 c (List.mem_cons_of_mem _ hc)) rest]

theorem noHash_hasMarker : ∀ {l : Str}, (∀ c ∈ l, c ≠ '#') → hasMarker l = false := by
  intro l
  induction l with
  | nil => intro _; rfl
  | cons c rest ih =>
    intro h
    cases rest with
    | nil => rfl
    | cons d rest' =>
      simp only [hasMarker, Bool.or_eq_false_iff, Bool.and_eq_false_iff]
      constructor
      · exact Or.inl (by simpa using h c (List.mem_cons_self _ _))
      · exact ih fun c hc => h c (List.mem_cons_of_mem _ hc)

/-- A marker-free text is returned unchanged by a pass, for any registry,
state and accumulators, in one loop iteration. -/
theorem expandGo_nomarker {reg : Registry} {inj : Bool} {T : Str}
    {st : EngineSt} {aP aA aI : List Str} (f : Nat)
    (h : hasMarker T = false) :
    expandGo reg inj (f + 1) T st aP aA aI = some (⟨T, aP, aA, aI⟩, st) := by
  rw [expandGo_succ, rmGo_id _ T _ h]
  dsimp only
  rw [if_neg (by simp)]
  simp

/-- A content with no `<` and no whitespace parses to itself. -/
theorem parse_plain {s : Str} (hs : s ≠ [])
    (hsc : ∀ c ∈ s, c ≠ '<' ∧ isWS c = false) :
    parseSnippetBlocks s true = some (some ⟨s, [], [], []⟩) := by
  rw [parse_no_tags (findTags_nil_of_no_lt (fun c hc => (hsc c hc).1))]
  rw [trim_eq_self_of_ends]
  · intro a ha
    have hmem : a ∈ s := by
      cases s with
      | nil => exact absurd ha (by simp)
      | cons c t =>
        injection ha with h'
        rw [← h']
        exact List.mem_cons_self _ _
    exact (hsc a hmem).2
  · intro a ha
    exact (hsc a (mem_of_getLast? ha)).2

theorem ne_hash_of_mem_two {c a b : Char} (ha : a ≠ '#') (hb : b ≠ '#')
    (h : c ∈ [a, b]) : c ≠ '#' := by
  simp only [List.mem_cons, List.not_mem_nil, or_false] at h
  rcases h with rfl | rfl <;> assumption

/-- Scanner behaviour on a text holding exactly two markers separated by
one space: two callback invocations, in order, with the space kept. -/
theorem rmGo_two_markers {σ : Type} (cb : Str → Str → σ → Option (Str × σ))
    {N1 N2 : Str} (h1 : N1 ≠ []) (hm1 : ∀ c ∈ N1, isMarkerChar c = true)
    (h2 : N2 ≠ []) (hm2 : ∀ c ∈ N2, isMarkerChar c = true) (s : σ) :
    rmGo cb ('#' :: (N1 ++ (' ' :: ('#' :: N2)))) 0 s =
      match cb ('#' :: N1) N1 s with
      | none => none
      | some (rep1, s1) =>
        match cb ('#' :: N2) N2 s1 with
        | none => none
        | some (rep2, s2) => some (rep1 ++ (' ' :: rep2), s2) := by
  have htw : (N1 ++ (' ' :: ('#' :: N2))).takeWhile isMarkerChar = N1 :=
    takeWhile_append_stop hm1 (by decide) _
  rw [rmGo_hash_mark cb (by rw [htw]; exact h1) s, htw]
  cases hcb1 : cb ('#' :: N1) N1 s with
  | none => rfl
  | some v =>
    obtain ⟨rep1, s1⟩ := v
    dsimp only
    rw [rmGo_skip_pre cb N1 (' ' :: ('#' :: N2)) s1]
    rw [rmGo_ne_hash cb (by decide) ('#' :: N2) s1]
    rw [rmGo_marker_end cb h2 hm2 s1]
    cases hcb2 : cb ('#' :: N2) N2 s1 with
    | none => rfl
    | some v2 =>
      obtain ⟨rep2, s2⟩ := v2
      rfl

/-- `rmGo_two_markers` folded onto the literal text `"#left #right"`. -/
theorem rmGo_leftright {σ : Type} (cb : Str → Str → σ → Option (Str × σ)) (s : σ) :
    rmGo cb (str "#left #right") 0 s =
      match cb (str "#left") (str "left") s with
      | none => none
      | some (rep1, s1) =>
        match cb (str "#right") (str "right") s1 with
        | none => none
        | some (rep2, s2) => some (rep1 ++ (' ' :: rep2), s2) :=
  @rmGo_two_markers σ cb (str "left") (str "right")
    (by decide) (by decide) (by decide) (by decide) s

/-- Expanding a branch text `pre ++ "#bottom"` against any registry that
maps `bottom` to a plain payload `s`: the marker is replaced by `s`, the
key's count goes up by one, nothing else changes. -/
theorem expand_branch (reg : Registry) (s : Str) (hs : s ≠ [])
    (hsc : ∀ c ∈ s, c ≠ '#' ∧ c ≠ '<' ∧ isWS c = false)
    (hreg : alGet reg (str "bottom") = some s)
    (pre : Str) (hpre : ∀ c ∈ pre, c ≠ '#')
    (f : Nat) (st : EngineSt) (c : Nat)
    (hc : countGet st.counts (str "bottom") = c) (hcle : c + 1 ≤ 15)
    (aP aA aI : List Str) :
    expandGo reg true (f + 2) (pre ++ ('#' :: str "bottom")) st aP aA aI =
      some (⟨pre ++ s, aP, aA, aI⟩,
        ⟨countsSet st.counts (str "bottom") (c + 1), st.warnings⟩) := by
  have hsp : parseSnippetBlocks s true = some (some ⟨s, [], [], []⟩) :=
    parse_plain hs fun c hc' => ⟨(hsc c hc').2.1, (hsc c hc').2.2⟩
  rw [show f + 2 = (f + 1) + 1 from rfl, expandGo_succ]
  rw [rmGo_prefix_marker _ pre hpre (by decide) (by decide) _]
  simp only [expandCbG]
  rw [show lowerStr (str "bottom") = str "bottom" from rfl, hreg]
  dsimp only
  rw [hc]
  rw [if_neg (by omega)]
  rw [hsp]
  dsimp only
  rw [expandGo_nomarker f (noHash_hasMarker fun c hc' => (hsc c hc').1)]
  dsimp only
  have hne : pre ++ s ≠ pre ++ ('#' :: str "bottom") := by
    intro heq
    have hcc := List.append_cancel_left heq
    cases s with
    | nil => exact hs rfl
    | cons c0 s' =>
      injection hcc with hc0
      exact absurd hc0 (hsc c0 (List.mem_cons_self _ _)).1
  rw [if_pos ⟨hne, rfl⟩]
  have hnm : hasMarker (pre ++ s) = false := by
    apply noHash_hasMarker
    intro c hc'
    rcases List.mem_append.mp hc' with h' | h'
    · exact hpre c h'
    · exact (hsc c h').1
  rw [expandGo_nomarker f hnm]
  simp

/-- The left branch, folded onto the literal content `"L #bottom"`. -/
theorem expand_L (reg : Registry) (s : Str) (hs : s ≠ [])
    (hsc : ∀ c ∈ s, c ≠ '#' ∧ c ≠ '<' ∧ isWS c = false)
    (hreg : alGet reg (str "bottom") = some s)
    (f : Nat) (st : EngineSt) (c : Nat)
    (hc : countGet st.counts (str "bottom") = c) (hcle : c + 1 ≤ 15)
    (aP aA aI : List Str) :
    expandGo reg true (f + 2) (str "L #bottom") st aP aA aI =
      some (⟨str "L " ++ s, aP, aA, aI⟩,
        ⟨countsSet st.counts (str "bottom") (c + 1), st.warnings⟩) :=
  expand_branch reg s hs hsc hreg (str "L ")
    (fun c hc' => ne_hash_of_mem_two (by decide) (by decide) hc')
    f st c hc hcle aP aA aI

/-- The right branch, folded onto the literal content `"R #bottom"`. -/
theorem expand_R (reg : Registry) (s : Str) (hs : s ≠ [])
    (hsc : ∀ c ∈ s, c ≠ '#' ∧ c ≠ '<' ∧ isWS c = false)
    (hreg : alGet reg (str "bottom") = some s)
    (f : Nat) (st : EngineSt) (c : Nat)
    (hc : countGet st.counts (str "bottom") = c) (hcle : c + 1 ≤ 15)
    (aP aA aI : List Str) :
    expandGo reg true (f + 2) (str "R #bottom") st aP aA aI =
      some (⟨str "R " ++ s, aP, aA, aI⟩,
        ⟨countsSet st.counts (str "bottom") (c + 1), st.warnings⟩) :=
  expand_branch reg s hs hsc hreg (str "R ")
    (fun c hc' => ne_hash_of_mem_two (by decide) (by decide) hc')
    f st c hc hcle aP aA aI

/-- `rmGo_marker_end` folded onto the literal text `"#top"`. -/
theorem rmGo_htop {σ : Type} (cb : Str → Str → σ → Option (Str × σ)) (s : σ) :
    rmGo cb (str "#top") 0 s = cb (str "#top") (str "top") s :=
  @rmGo_marker_end σ cb (str "top") (by decide) (by decide) s

/-- The fully expanded diamond text contains no marker. -/
theorem diamond_text_hashfree {s : Str}
    (hsc : ∀ c ∈ s, c ≠ '#' ∧ c ≠ '<' ∧ isWS c = false) :
    hasMarker ((str "L " ++ s) ++ (' ' :: (str "R " ++ s))) = false := by
  apply noHash_hasMarker
  intro c hcm
  rcases List.mem_append.mp hcm with h' | h'
  · rcases List.mem_append.mp h' with h'' | h''
    · exact ne_hash_of_mem_two (by decide) (by decide) h''
    · exact (hsc c h'').1
  · rcases List.mem_cons.mp h' with rfl | h''
    · decide
    · rcases List.mem_append.mp h'' with h3 | h3
      · exact ne_hash_of_mem_two (by decide) (by decide) h3
      · exact (hsc c h3).1

/-- The middle layer of the diamond: expanding `"#left #right"` (with
`top` already counted once) resolves both branches, sharing the `bottom`
payload, whose counter ends at 2 — no budget event, no warning. -/
theorem expand_lr (s : Str) (hs : s ≠ [])
    (hsc : ∀ c ∈ s, c ≠ '#' ∧ c ≠ '<' ∧ isWS c = false) :
    expandGo [(str "top", str "#left #right"), (str "left", str "L #bottom"),
        (str "right", str "R #bottom"), (str "bottom", s)] true 63
        (str "#left #right") ⟨[(str "top", 1)], []⟩ [] [] [] =
      some (⟨(str "L " ++ s) ++ (' ' :: (str "R " ++ s)), [], [], []⟩,
        ⟨[(str "top", 1), (str "left", 1), (str "bottom", 2), (str "right", 1)],
          []⟩) := by
  rw [show (63 : Nat) = 62 + 1 from rfl, expandGo_succ]
  rw [rmGo_leftright]
  simp only [expandCbG]
  rw [show lowerStr (str "left") = str "left" from rfl]
  rw [show alGet [(str "top", str "#left #right"), (str "left", str "L #bottom"),
    (str "right", str "R #bottom"), (str "bottom", s)] (str "left") =
      some (str "L #bottom") from rfl]
  dsimp only
  rw [show countGet [(str "top", 1)] (str "left") = 0 from rfl]
  rw [if_neg (by omega)]
  rw [show parseSnippetBlocks (str "L #bottom") true =
    some (some ⟨str "L #bottom", [], [], []⟩) from by decide]
  dsimp only
  rw [show (62 : Nat) = 60 + 2 from rfl]
  rw [expand_L [(str "top", str "#left #right"), (str "left", str "L #bottom"),
    (str "right", str "R #bottom"), (str "bottom", s)] s hs hsc rfl 60
    ⟨countsSet [(str "top", 1)] (str "left") (0 + 1), []⟩ 0 rfl (by omega)
    [] [] []]
  dsimp only
  rw [show lowerStr (str "right") = str "right" from rfl]
  rw [show alGet [(str "top", str "#left #right"), (str "left", str "L #bottom"),
    (str "right", str "R #bottom"), (str "bottom", s)] (str "right") =
      some (str "R #bottom") from rfl]
  dsimp only
  rw [show countGet (countsSet (countsSet [(str "top", 1)] (str "left") (0 + 1))
    (str "bottom") (0 + 1)) (str "right") = 0 from rfl]
  rw [if_neg (by omega)]
  rw [show parseSnippetBlocks (str "R #bottom") true =
    some (some ⟨str "R #bottom", [], [], []⟩) from by decide]
  dsimp only
  rw [expand_R [(str "top", str "#left #right"), (str "left", str "L #bottom"),
    (str "right", str "R #bottom"), (str "bottom", s)] s hs hsc rfl 60
    ⟨countsSet (countsSet (countsSet [(str "top", 1)] (str "left") (0 + 1))
      (str "bottom") (0 + 1)) (str "right") (0 + 1), []⟩ 1 rfl (by omega)
    [] [] []]
  dsimp only
  have hne : (str "L " ++ s) ++ (' ' :: (str "R " ++ s)) ≠ str "#left #right" := by
    intro heq
    have hlen := congrArg List.length heq
    simp only [List.length_append, List.length_cons] at hlen
    rw [show (str "L ").length = 2 from rfl, show (str "R ").length = 2 from rfl,
      show (str "#left #right").length = 12 from rfl] at hlen
    omega
  rw [if_pos ⟨hne, rfl⟩]
  rw [show (60 : Nat) + 2 = 61 + 1 from rfl]
  rw [expandGo_nomarker 61 (diamond_text_hashfree hsc)]
  rfl

/-- C5: diamond sharing is not a cycle.  Concretely, with
`top = "#left #right"`, `left = "L #bottom"`, `right = "R #bottom"`,
`bottom = "B"`, expanding `"#top"` yields exactly `"L B R B"` with final
counts top 1, left 1, bottom 2, right 1 and no warnings; and in general,
for any plain payload `s` as the shared fragment's content, both branches
get `s` expanded successfully — the shared counter reaching 2 on the
shared key causes no false-positive cycle detection. -/
theorem claim_C5_diamond :
    (expandHashtags (str "#top")
        [(str "top", str "#left #right"), (str "left", str "L #bottom"),
          (str "right", str "R #bottom"), (str "bottom", str "B")] =
      some (⟨str "L B R B", [], [], []⟩,
        ⟨[(str "top", 1), (str "left", 1), (str "bottom", 2), (str "right", 1)],
          []⟩)) ∧
    (∀ s : Str, s ≠ [] → (∀ c ∈ s, c ≠ '#' ∧ c ≠ '<' ∧ isWS c = false) →
      expandHashtags (str "#top")
          [(str "top", str "#left #right"), (str "left", str "L #bottom"),
            (str "right", str "R #bottom"), (str "bottom", s)] =
        some (⟨(str "L " ++ s) ++ (' ' :: (str "R " ++ s)), [], [], []⟩,
          ⟨[(str "top", 1), (str "left", 1), (str "bottom", 2),
            (str "right", 1)], []⟩)) := by
  constructor
  · rfl
  · intro s hs hsc
    show expandGo _ true 64 (str "#top") ⟨[], []⟩ [] [] [] = _
    rw [show (64 : Nat) = 63 + 1 from rfl, expandGo_succ]
    rw [rmGo_htop]
    simp only [expandCbG]
    rw [show lowerStr (str "top") = str "top" from rfl]
    rw [show alGet [(str "top", str "#left #right"), (str "left", str "L #bottom"),
      (str "right", str "R #bottom"), (str "bottom", s)] (str "top") =
        some (str "#left #right") from rfl]
    dsimp only
    rw [show countGet ([] : Counts) (str "top") = 0 from rfl]
    rw [if_neg (by omega)]
    rw [show parseSnippetBlocks (str "#left #right") true =
      some (some ⟨str "#left #right", [], [], []⟩) from by decide]
    dsimp only
    rw [show countsSet [] (str "top") (0 + 1) = [(str "top", 1)] from rfl]
    rw [expand_lr s hs hsc]
    dsimp only
    have hne : (str "L " ++ s) ++ (' ' :: (str "R " ++ s)) ≠ str "#top" := by
      intro heq
      have hlen := congrArg List.length heq
      simp only [List.length_append, List.length_cons] at hlen
      rw [show (str "L ").length = 2 from rfl, show (str "R ").length = 2 from rfl,
        show (str "#top").length = 4 from rfl] at hlen
      omega
    rw [if_pos ⟨hne, rfl⟩]
    rw [show (63 : Nat) = 62 + 1 from rfl]
    rw [expandGo_nomarker 62 (diamond_text_hashfree hsc)]
    rfl

/-- C5 witness: the general diamond at the payload `"B"` of the concrete
scenario. -/
theorem claim_C5_witness :
    expandHashtags (str "#top")
        [(str "top", str "#left #right"), (str "left", str "L #bottom"),
          (str "right", str "R #bottom"), (str "bottom", str "B")] =
      some (⟨(str "L " ++ str "B") ++ (' ' :: (str "R " ++ str "B")), [], [], []⟩,
        ⟨[(str "top", 1), (str "left", 1), (str "bottom", 2), (str "right", 1)],
          []⟩) :=
  claim_C5_diamond.2 (str "B") (by decide) (by decide)

end Snip
